import Mathlib

/-
Verification of the paint-demo instrumentation core.

Shallow embedding of the Large-Contentful-Set (LCS) tracker, the custom-LCP
tracker (src/metrics.js), and the DisplayManager / ImageLoader metrics
aggregation: finalizeResults, viewport first-entry recording, the bounded
paint-polling loop, and the timing reference (src/unnamed/part_000).

Numbers that are JS doubles in the source are modelled as rationals; none of
the verified properties depends on floating-point rounding.  DOM element
identity (the `===` comparisons on element references) is modelled by a
numeric `elementId`; `element.tagName` is modelled by a `tag` string.
-/

namespace PaintDemo

/-! ## LCS tracker data model (src/metrics.js, customMetrics.lcs) -/

/-- One member of the Large Contentful Set: the effective element, its area in
px², and the paint event data that produced it (we keep the paint time, the
only paintEvent field the tracker reads back). -/
structure LCSEntry where
  elementId : Nat
  tag : String
  area : ℚ
  time : ℚ
deriving DecidableEq

/-- The `customMetrics.lcs` object (metrics.js:518-522) with fields elements,
threshold (initially 0.8) and lastPaintTime (initially 0). -/
structure LCSState where
  elements : List LCSEntry
  threshold : ℚ
  lastPaintTime : ℚ
deriving DecidableEq

/-- A paint event as consumed by updateLCS / updateCustomLCP, after the
effective-element resolution (`findLargestImageWithin`) has been applied:
identity, tagName, area and time of the effective element. -/
structure PaintEv where
  elementId : Nat
  tag : String
  area : ℚ
  time : ℚ
deriving DecidableEq

/-- JS `Math.max` folded over a non-empty collection, seeded with its head. -/
def listMaxQ (q : ℚ) (l : List ℚ) : ℚ := l.foldl max q

/-- Embeds `Math.max(...elements.map(item => item.area))` (metrics.js:1336).
The `[]` case is unreachable at every use site (the code guards on a
non-empty list) and is given a dummy value. -/
def maxArea : List LCSEntry → ℚ
  | [] => 0
  | x :: xs => listMaxQ x.area (xs.map LCSEntry.area)

/-- Embeds `Math.max(...elements.map(item => item.paintEvent.time))`
(metrics.js:1382-1384). -/
def maxTime : List LCSEntry → ℚ
  | [] => 0
  | x :: xs => listMaxQ x.time (xs.map LCSEntry.time)

/-- The findIndex / replace-else-push step of updateLCS
(metrics.js:1343-1363): replace the first entry with the same element
identity, or append at the end. -/
def upsert : List LCSEntry → LCSEntry → List LCSEntry
  | [], e => [e]
  | x :: xs, e =>
    if x.elementId = e.elementId then e :: xs else x :: upsert xs e

/-- Embeds `updateLCS(element, paintEvent)` (metrics.js:1313-1392), taking the
already-resolved effective element id/tag and its area and paint time.
Steps, in source order: empty-set initialisation; threshold admission with
upsert and lastPaintTime bump; recompute-on-new-max filter with
lastPaintTime recalculation. -/
def updateLCS (s : LCSState) (eid : Nat) (tg : String) (a t : ℚ) : LCSState :=
  if s.elements = [] then
    { s with elements := [⟨eid, tg, a, t⟩], lastPaintTime := t }
  else
    let largestArea := maxArea s.elements
    let thresholdArea := largestArea * s.threshold
    let s1 :=
      if thresholdArea ≤ a then
        { s with
          elements := upsert s.elements ⟨eid, tg, a, t⟩,
          lastPaintTime := if s.lastPaintTime < t then t else s.lastPaintTime }
      else s
    if largestArea < a then
      let kept := s1.elements.filter (fun x => a * s.threshold ≤ x.area)
      { s1 with
        elements := kept,
        lastPaintTime := if kept = [] then s1.lastPaintTime else maxTime kept }
    else s1

/-- The initial / reset LCS state (metrics.js:518-522, 739-743):
`{ elements: [], threshold: 0.8, lastPaintTime: 0 }`. -/
def initLCS : LCSState := { elements := [], threshold := 4/5, lastPaintTime := 0 }

/-- A sequence of paint events pushed through updateLCS in order. -/
def processLCS (s : LCSState) (evs : List PaintEv) : LCSState :=
  evs.foldl (fun st e => updateLCS st e.elementId e.tag e.area e.time) s

/-- Embeds `filterLargeElements()` (metrics.js:1397-1436): when the set holds both
DIV and IMG entries, keep an entry only if it is an IMG or its area exceeds
1.5× the largest IMG area. -/
def filterLargeElements (s : LCSState) : LCSState :=
  if 0 < s.elements.length then
    let hasDivs := s.elements.any (fun x => x.tag = "DIV")
    let hasImages := s.elements.any (fun x => x.tag = "IMG")
    if hasDivs && hasImages then
      let imageElements := s.elements.filter (fun x => x.tag = "IMG")
      if 0 < imageElements.length then
        let largestImageArea := maxArea imageElements
        let kept := s.elements.filter
          (fun x => x.tag = "IMG" ∨ largestImageArea * (3/2) < x.area)
        { s with
          elements := kept,
          lastPaintTime := if 0 < kept.length then maxTime kept else s.lastPaintTime }
      else s
    else s
  else s

/-! ## Custom LCP tracker (src/metrics.js, updateCustomLCP) -/

/-- The `customMetrics.customLCP` object; we keep the fields the update logic
reads or that identify the element (size, render time, tag, identity). -/
structure CustomLCP where
  size : ℚ
  value : ℚ
  tag : String
  elementId : Nat
deriving DecidableEq

/-- Embeds `updateCustomLCP(element, paintEvent)` (metrics.js:1288-1308): replace
the stored metric iff there is none yet or the new area is strictly larger
(`!customLCP || area > customLCP.size`). -/
def updateCustomLCP (cur : Option CustomLCP) (eid : Nat) (tg : String) (a t : ℚ) :
    Option CustomLCP :=
  match cur with
  | none => some { size := a, value := t, tag := tg, elementId := eid }
  | some c =>
    if c.size < a then some { size := a, value := t, tag := tg, elementId := eid }
    else some c

/-- A sequence of paint events pushed through updateCustomLCP in order
(recordPaintEvent calls it once per event, metrics.js:1277). -/
def processCustomLCP (cur : Option CustomLCP) (evs : List PaintEv) : Option CustomLCP :=
  evs.foldl (fun c e => updateCustomLCP c e.elementId e.tag e.area e.time) cur

/-! ## Paint-delta aggregation (src/unnamed/part_000, DisplayManager-side
ImageLoader: timingData.paintDeltas and finalizeResults) -/

/-- One entry of `timingData.paintDeltas` (part_000:770-779). -/
structure PaintDelta where
  imageIndex : Nat
  type : String
  loadTime : ℚ
  paintTime : ℚ
  delta : ℚ
  method : String
deriving DecidableEq

/-- The dedup key `` `${item.imageIndex}-${item.type}` `` (part_000:941).
Since the index prints with no dash, the string key is injective on the
(imageIndex, type) pair, which we use directly. -/
def pdKey (x : PaintDelta) : Nat × String := (x.imageIndex, x.type)

/-- The seenKeys/uniquePaintDeltas loop of finalizeResults
(part_000:938-948): keep the first occurrence of each key. -/
def dedupAux (seen : List (Nat × String)) : List PaintDelta → List PaintDelta
  | [] => []
  | x :: xs =>
    if pdKey x ∈ seen then dedupAux seen xs
    else x :: dedupAux (pdKey x :: seen) xs

/-- Embeds `finalizeResults()` (part_000:932-959) acting on
`timingData.paintDeltas`: drop entries with `delta >= 10000`, then
deduplicate keeping the first entry per `imageIndex-type` key. -/
def finalizeResults (l : List PaintDelta) : List PaintDelta :=
  dedupAux [] (l.filter (fun x => x.delta < 10000))

/-! ## Viewport first-entry recording (src/unnamed/part_000) -/

/-- An intersection signal for a tracked element: its index, the
cycle-relative time, the reported intersection ratio value, and whether the
element is intersecting. -/
structure VEvent where
  index : Nat
  time : ℚ
  ratioVal : ℚ
  isIntersecting : Bool
deriving DecidableEq

/-- One entry of `timingData.viewportDeltas` (part_000:453-458). -/
structure VRec where
  imageIndex : Nat
  viewportTime : ℚ
  ratioVal : ℚ
deriving DecidableEq

/-- The guarded push shared by the IntersectionObserver callback
(part_000:452-459) and checkViewportStatus (part_000:532-543): record only
when intersecting and no record with the same imageIndex exists. -/
def recordViewportEntry (l : List VRec) (e : VEvent) : List VRec :=
  if e.isIntersecting && !(l.any fun r => r.imageIndex = e.index) then
    l ++ [{ imageIndex := e.index, viewportTime := e.time, ratioVal := e.ratioVal }]
  else l

/-- All viewport signals of one load cycle, in callback order, starting from
the empty viewportDeltas list set up in continueLoading (part_000:895-900). -/
def processViewport (evs : List VEvent) : List VRec :=
  evs.foldl recordViewportEntry []

/-! ## Bounded paint polling (src/unnamed/part_000, monitorPaintTime) -/

/-- One animation-frame callback observation: `t` is
`performance.now() - timingData.startTime` at the frame, `painted` is the
detection condition `offsetWidth !== originalWidth || offsetHeight !==
originalHeight || naturalWidth > 0` (part_000:765). -/
structure Frame where
  t : ℚ
  painted : Bool
deriving DecidableEq

/-- The checkPaint recursion of monitorPaintTime (part_000:759-800) over the
sequence of animation frames it would observe, acting on the current
paintDeltas list.  A painted frame returns (recording unless the delta
exceeds 10000 or an entry for the key exists); an unpainted frame
reschedules only while `performance.now() - startTime < 10000`. -/
def checkPaint (deltas : List PaintDelta) (idx : Nat) (ty : String) (loadTime : ℚ) :
    List Frame → List PaintDelta
  | [] => deltas
  | f :: fs =>
    if f.painted then
      if 10000 < f.t - loadTime then deltas
      else if deltas.any (fun x => x.imageIndex = idx ∧ x.type = ty) then deltas
      else deltas ++ [⟨idx, ty, loadTime, f.t, f.t - loadTime, "requestAnimationFrame"⟩]
    else if f.t < 10000 then checkPaint deltas idx ty loadTime fs
    else deltas

/-! ## Timing reference (src/unnamed/part_000 and part_002) -/

/-- Reading of `performance.now()` at raw monotonic instant `tau`, given the raw instant
`navStart` of the navigation-start reference: the reading is relative to the
time origin. -/
def perfNow (navStart tau : ℚ) : ℚ := tau - navStart

/-- Value `timingData.startTime = performance.now()` captured in continueLoading
(part_000:896) at raw instant `tau0`. -/
def cycleStartTime (navStart tau0 : ℚ) : ℚ := perfNow navStart tau0

/-- The timestamp stored through the `performance.now() -
this.timingData.startTime` store sites — load records (part_000:637),
viewport records (part_000:406, 492) and requestAnimationFrame-method paint
records (part_000:766) — for an event at raw instant `tau`. -/
def storedEventTime (navStart tau0 tau : ℚ) : ℚ :=
  perfNow navStart tau - cycleStartTime navStart tau0

/-- The paint timestamp stored by the ElementTiming observer store site
(part_000:823, 839-846): `paintTime = entry.renderTime || entry.startTime`,
pushed into `timingData.paintDeltas` as is.  Performance-API entry times are
relative to the time origin, so a render at raw instant `tau` reports
`perfNow navStart tau`; no `startTime` subtraction is applied. -/
def elementTimingPaintTime (navStart tau : ℚ) : ℚ := perfNow navStart tau

/-! ## Lemmas about the folded maximum -/

theorem le_listMaxQ_init (q : ℚ) (l : List ℚ) : q ≤ listMaxQ q l := by
  induction l generalizing q with
  | nil => exact le_refl q
  | cons a as ih =>
    calc q ≤ max q a := le_max_left q a
    _ ≤ listMaxQ (max q a) as := ih (max q a)

theorem le_listMaxQ_of_mem {x : ℚ} {l : List ℚ} (q : ℚ) (hx : x ∈ l) :
    x ≤ listMaxQ q l := by
  induction l generalizing q with
  | nil => cases hx
  | cons a as ih =>
    rcases List.mem_cons.mp hx with h | h
    · subst h
      calc x ≤ max q x := le_max_right q x
      _ ≤ listMaxQ (max q x) as := le_listMaxQ_init _ as
    · exact ih (max q a) h

theorem listMaxQ_le {q b : ℚ} {l : List ℚ} (hq : q ≤ b) (hl : ∀ x ∈ l, x ≤ b) :
    listMaxQ q l ≤ b := by
  induction l generalizing q with
  | nil => exact hq
  | cons a as ih =>
    exact ih (max_le hq (hl a (List.mem_cons_self a as)))
      (fun x hx => hl x (List.mem_cons_of_mem a hx))

theorem area_le_maxArea {x : LCSEntry} {l : List LCSEntry} (hx : x ∈ l) :
    x.area ≤ maxArea l := by
  cases l with
  | nil => cases hx
  | cons y ys =>
    rcases List.mem_cons.mp hx with h | h
    · subst h
      exact le_listMaxQ_init _ _
    · exact le_listMaxQ_of_mem _ (List.mem_map_of_mem LCSEntry.area h)

theorem maxArea_le {l : List LCSEntry} {b : ℚ} (hne : l ≠ [])
    (h : ∀ x ∈ l, x.area ≤ b) : maxArea l ≤ b := by
  cases l with
  | nil => exact absurd rfl hne
  | cons y ys =>
    refine listMaxQ_le (h y (List.mem_cons_self y ys)) ?_
    intro a ha
    rcases List.mem_map.mp ha with ⟨e, he, rfl⟩
    exact h e (List.mem_cons_of_mem y he)

theorem maxArea_nonneg {l : List LCSEntry} (hne : l ≠ [])
    (h : ∀ x ∈ l, 0 ≤ x.area) : 0 ≤ maxArea l := by
  rcases List.exists_mem_of_ne_nil l hne with ⟨y, hy⟩
  exact le_trans (h y hy) (area_le_maxArea hy)

/-! ## Lemmas about the upsert step -/

theorem mem_upsert {x e : LCSEntry} {l : List LCSEntry} (hx : x ∈ upsert l e) :
    x = e ∨ x ∈ l := by
  induction l with
  | nil =>
    simp only [upsert, List.mem_singleton] at hx
    exact Or.inl hx
  | cons y ys ih =>
    by_cases h : y.elementId = e.elementId
    · simp only [upsert, if_pos h, List.mem_cons] at hx
      rcases hx with h1 | h1
      · exact Or.inl h1
      · exact Or.inr (List.mem_cons_of_mem y h1)
    · simp only [upsert, if_neg h, List.mem_cons] at hx
      rcases hx with h1 | h1
      · exact Or.inr (h1 ▸ List.mem_cons_self y ys)
      · rcases ih h1 with h2 | h2
        · exact Or.inl h2
        · exact Or.inr (List.mem_cons_of_mem y h2)

theorem self_mem_upsert (l : List LCSEntry) (e : LCSEntry) : e ∈ upsert l e := by
  induction l with
  | nil => simp [upsert]
  | cons y ys ih =>
    by_cases h : y.elementId = e.elementId
    · simp [upsert, if_pos h]
    · simp only [upsert, if_neg h, List.mem_cons]
      exact Or.inr ih

theorem upsert_ne_nil (l : List LCSEntry) (e : LCSEntry) : upsert l e ≠ [] := by
  cases l with
  | nil => simp [upsert]
  | cons y ys =>
    by_cases h : y.elementId = e.elementId
    · simp [upsert, if_pos h]
    · simp [upsert, if_neg h]

/-! ## Shape lemmas for updateLCS -/

theorem updateLCS_threshold (s : LCSState) (eid : Nat) (tg : String) (a t : ℚ) :
    (updateLCS s eid tg a t).threshold = s.threshold := by
  simp only [updateLCS]
  split_ifs <;> rfl

theorem updateLCS_elements (s : LCSState) (eid : Nat) (tg : String) (a t : ℚ) :
    (updateLCS s eid tg a t).elements =
      if s.elements = [] then [⟨eid, tg, a, t⟩]
      else if maxArea s.elements < a then
        (if maxArea s.elements * s.threshold ≤ a then upsert s.elements ⟨eid, tg, a, t⟩
         else s.elements).filter (fun x => a * s.threshold ≤ x.area)
      else if maxArea s.elements * s.threshold ≤ a then upsert s.elements ⟨eid, tg, a, t⟩
      else s.elements := by
  simp only [updateLCS]
  split_ifs <;> rfl

/-- Invariant preservation through one updateLCS call: areas stay
nonnegative, and every member keeps area at least threshold × the maximum
member area. -/
theorem updateLCS_inv (s : LCSState) (eid : Nat) (tg : String) (a t : ℚ)
    (hth0 : 0 ≤ s.threshold) (hth1 : s.threshold ≤ 1) (ha : 0 ≤ a)
    (hpos : ∀ x ∈ s.elements, 0 ≤ x.area)
    (hinv : ∀ x ∈ s.elements, s.threshold * maxArea s.elements ≤ x.area) :
    (∀ x ∈ (updateLCS s eid tg a t).elements, 0 ≤ x.area) ∧
    (∀ x ∈ (updateLCS s eid tg a t).elements,
      s.threshold * maxArea (updateLCS s eid tg a t).elements ≤ x.area) := by
  rw [updateLCS_elements]
  by_cases h0 : s.elements = []
  · simp only [if_pos h0]
    refine ⟨?_, ?_⟩ <;> intro x hx <;> rw [List.mem_singleton] at hx <;> subst hx
    · exact ha
    · have hm : maxArea [(⟨eid, tg, a, t⟩ : LCSEntry)] = a := rfl
      rw [hm]
      calc s.threshold * a ≤ 1 * a := mul_le_mul_of_nonneg_right hth1 ha
      _ = a := one_mul a
  · simp only [if_neg h0]
    have hL0 : 0 ≤ maxArea s.elements := maxArea_nonneg h0 hpos
    by_cases h1 : maxArea s.elements * s.threshold ≤ a
    · simp only [if_pos h1]
      have hupmem : ∀ x ∈ upsert s.elements ⟨eid, tg, a, t⟩,
          x = ⟨eid, tg, a, t⟩ ∨ x ∈ s.elements := fun x hx => mem_upsert hx
      have huppos : ∀ x ∈ upsert s.elements ⟨eid, tg, a, t⟩, 0 ≤ x.area := by
        intro x hx
        rcases hupmem x hx with rfl | hxs
        · exact ha
        · exact hpos x hxs
      by_cases h2 : maxArea s.elements < a
      · simp only [if_pos h2]
        have hkmem : ∀ x ∈ (upsert s.elements ⟨eid, tg, a, t⟩).filter
            (fun x => a * s.threshold ≤ x.area),
            x ∈ upsert s.elements ⟨eid, tg, a, t⟩ ∧ a * s.threshold ≤ x.area := by
          intro x hx
          have h3 := List.mem_filter.mp hx
          exact ⟨h3.1, by simpa using h3.2⟩
        have hepred : a * s.threshold ≤ a := by
          calc a * s.threshold ≤ a * 1 := mul_le_mul_of_nonneg_left hth1 ha
          _ = a := mul_one a
        have heK : (⟨eid, tg, a, t⟩ : LCSEntry) ∈
            (upsert s.elements ⟨eid, tg, a, t⟩).filter
              (fun x => a * s.threshold ≤ x.area) :=
          List.mem_filter.mpr ⟨self_mem_upsert _ _, by simpa using hepred⟩
        have hbound : ∀ x ∈ (upsert s.elements ⟨eid, tg, a, t⟩).filter
            (fun x => a * s.threshold ≤ x.area), x.area ≤ a := by
          intro x hx
          rcases hupmem x (hkmem x hx).1 with rfl | hxs
          · exact le_refl a
          · exact le_trans (area_le_maxArea hxs) (le_of_lt h2)
        have hmk : maxArea ((upsert s.elements ⟨eid, tg, a, t⟩).filter
            (fun x => a * s.threshold ≤ x.area)) ≤ a :=
          maxArea_le (List.ne_nil_of_mem heK) hbound
        refine ⟨fun x hx => huppos x (hkmem x hx).1, fun x hx => ?_⟩
        calc s.threshold * maxArea ((upsert s.elements ⟨eid, tg, a, t⟩).filter
              (fun x => a * s.threshold ≤ x.area))
            ≤ s.threshold * a := mul_le_mul_of_nonneg_left hmk hth0
        _ = a * s.threshold := mul_comm _ _
        _ ≤ x.area := (hkmem x hx).2
      · simp only [if_neg h2]
        push_neg at h2
        have hub : ∀ x ∈ upsert s.elements ⟨eid, tg, a, t⟩, x.area ≤ maxArea s.elements := by
          intro x hx
          rcases hupmem x hx with rfl | hxs
          · exact h2
          · exact area_le_maxArea hxs
        have hmu : maxArea (upsert s.elements ⟨eid, tg, a, t⟩) ≤ maxArea s.elements :=
          maxArea_le (upsert_ne_nil _ _) hub
        have hth : s.threshold * maxArea (upsert s.elements ⟨eid, tg, a, t⟩) ≤
            s.threshold * maxArea s.elements := mul_le_mul_of_nonneg_left hmu hth0
        refine ⟨huppos, fun x hx => ?_⟩
        rcases hupmem x hx with rfl | hxs
        · refine le_trans hth ?_
          rw [mul_comm]
          exact h1
        · exact le_trans hth (hinv x hxs)
    · simp only [if_neg h1]
      by_cases h2 : maxArea s.elements < a
      · exfalso
        apply h1
        calc maxArea s.elements * s.threshold ≤ maxArea s.elements * 1 :=
          mul_le_mul_of_nonneg_left hth1 hL0
        _ = maxArea s.elements := mul_one _
        _ ≤ a := le_of_lt h2
      · simp only [if_neg h2]
        exact ⟨hpos, hinv⟩

/-- Invariant preservation through any event sequence. -/
theorem processLCS_inv (evs : List PaintEv) : ∀ s : LCSState,
    0 ≤ s.threshold → s.threshold ≤ 1 → (∀ e ∈ evs, 0 ≤ e.area) →
    (∀ x ∈ s.elements, 0 ≤ x.area) →
    (∀ x ∈ s.elements, s.threshold * maxArea s.elements ≤ x.area) →
    (processLCS s evs).threshold = s.threshold ∧
    (∀ x ∈ (processLCS s evs).elements, 0 ≤ x.area) ∧
    (∀ x ∈ (processLCS s evs).elements,
      s.threshold * maxArea (processLCS s evs).elements ≤ x.area) := by
  induction evs with
  | nil => exact fun s _ _ _ h4 h5 => ⟨rfl, h4, h5⟩
  | cons e es ih =>
    intro s h1 h2 h3 h4 h5
    have hstep := updateLCS_inv s e.elementId e.tag e.area e.time h1 h2
      (h3 e (List.mem_cons_self e es)) h4 h5
    have hth := updateLCS_threshold s e.elementId e.tag e.area e.time
    have hrec := ih (updateLCS s e.elementId e.tag e.area e.time)
      (hth ▸ h1) (hth ▸ h2) (fun x hx => h3 x (List.mem_cons_of_mem e hx))
      hstep.1 (hth ▸ hstep.2)
    have hfold : processLCS s (e :: es) =
        processLCS (updateLCS s e.elementId e.tag e.area e.time) es := rfl
    rw [hfold]
    exact ⟨hrec.1.trans hth, hrec.2.1, hth ▸ hrec.2.2⟩

/-- C1: for every sequence of paint events processed by updateLCS (areas are
widths times heights, hence nonnegative), after each call every entry of the
LCS elements list has area at least 0.8 times the maximum entry area; in
particular an event whose area exceeds the prior maximum never leaves an
entry below 0.8 times the new maximum. -/
theorem lcs_set_invariant (evs : List PaintEv) (hpos : ∀ e ∈ evs, 0 ≤ e.area) :
    ∀ x ∈ (processLCS initLCS evs).elements,
      (4/5 : ℚ) * maxArea (processLCS initLCS evs).elements ≤ x.area := by
  have h := processLCS_inv evs initLCS (by norm_num [initLCS]) (by norm_num [initLCS])
    hpos (by simp [initLCS]) (by simp [initLCS])
  intro x hx
  have h2 := h.2.2 x hx
  simpa [initLCS] using h2

/-- Witness for C1 at a concrete event sequence and member. -/
theorem lcs_set_invariant_witness :
    (4/5 : ℚ) * maxArea (processLCS initLCS
      [⟨1, "IMG", 100, 5⟩, ⟨2, "IMG", 85, 7⟩]).elements ≤
      LCSEntry.area ⟨2, "IMG", 85, 7⟩ :=
  lcs_set_invariant [⟨1, "IMG", 100, 5⟩, ⟨2, "IMG", 85, 7⟩]
    (by norm_num [List.forall_mem_cons])
    ⟨2, "IMG", 85, 7⟩
    (by norm_num [processLCS, updateLCS, initLCS, maxArea, listMaxQ, upsert])

/-- C4: applying updateLCS, on a state with entries of areas 100 and 85 and
threshold 0.8, to a new paint event of area 200 leaves exactly the area-200
element: the recompute cutoff 160 drops both 100 and 85.  Stated for
arbitrary identities, tags and times. -/
theorem lcs_recompute_on_new_max (id1 id2 id3 : Nat) (tg1 tg2 tg3 : String)
    (t1 t2 t3 lpt : ℚ) :
    (updateLCS ⟨[⟨id1, tg1, 100, t1⟩, ⟨id2, tg2, 85, t2⟩], 4/5, lpt⟩
      id3 tg3 200 t3).elements = [⟨id3, tg3, 200, t3⟩] := by
  by_cases h1 : id1 = id3 <;> by_cases h2 : id2 = id3 <;>
    norm_num [updateLCS_elements, maxArea, listMaxQ, max_def, upsert, h1, h2,
      List.filter_cons]

/-! ## The container filter -/

theorem filterLargeElements_elements (s : LCSState)
    (hd : s.elements.any (fun x => x.tag = "DIV") = true)
    (hi : s.elements.any (fun x => x.tag = "IMG") = true) :
    (filterLargeElements s).elements = s.elements.filter
      (fun x => x.tag = "IMG" ∨
        maxArea (s.elements.filter (fun y => y.tag = "IMG")) * (3/2) < x.area) := by
  rcases List.any_eq_true.mp hi with ⟨x, hx, hxtag⟩
  have h0 : 0 < s.elements.length := List.length_pos.mpr (List.ne_nil_of_mem hx)
  have hxi : x ∈ s.elements.filter (fun y => y.tag = "IMG") :=
    List.mem_filter.mpr ⟨hx, hxtag⟩
  have h1 : 0 < (s.elements.filter (fun y => y.tag = "IMG")).length :=
    List.length_pos.mpr (List.ne_nil_of_mem hxi)
  simp only [filterLargeElements, if_pos h0, hd, hi, Bool.and_self, if_pos h1,
    if_true]

/-- C8: with both DIV and IMG entries present, filterLargeElements keeps
every IMG entry, and keeps a DIV entry iff its area strictly exceeds 1.5
times the largest IMG entry area. -/
theorem filter_prefers_images (s : LCSState)
    (hd : ∃ x ∈ s.elements, x.tag = "DIV") (hi : ∃ x ∈ s.elements, x.tag = "IMG") :
    (∀ x ∈ s.elements, x.tag = "IMG" → x ∈ (filterLargeElements s).elements) ∧
    (∀ x ∈ s.elements, x.tag = "DIV" →
      (x ∈ (filterLargeElements s).elements ↔
        maxArea (s.elements.filter (fun y => y.tag = "IMG")) * (3/2) < x.area)) := by
  have hd' : s.elements.any (fun x => x.tag = "DIV") = true := by
    rcases hd with ⟨x, hx, hxt⟩
    exact List.any_eq_true.mpr ⟨x, hx, by simpa using hxt⟩
  have hi' : s.elements.any (fun x => x.tag = "IMG") = true := by
    rcases hi with ⟨x, hx, hxt⟩
    exact List.any_eq_true.mpr ⟨x, hx, by simpa using hxt⟩
  rw [filterLargeElements_elements s hd' hi']
  constructor
  · intro x hx hxt
    exact List.mem_filter.mpr ⟨hx, by simp [hxt]⟩
  · intro x hx hxt
    constructor
    · intro hmem
      have h3 := (List.mem_filter.mp hmem).2
      rw [hxt] at h3
      simpa using h3
    · intro harea
      exact List.mem_filter.mpr ⟨hx, by simp [harea]⟩

/-- Witness for C8: Scenario E, a DIV of area 500 with an IMG of area 300
survives the filter (500 > 450). -/
theorem filter_prefers_images_witness :
    (⟨1, "DIV", 500, 1⟩ : LCSEntry) ∈
      (filterLargeElements
        ⟨[⟨1, "DIV", 500, 1⟩, ⟨2, "IMG", 300, 2⟩], 4/5, 2⟩).elements :=
  ((filter_prefers_images ⟨[⟨1, "DIV", 500, 1⟩, ⟨2, "IMG", 300, 2⟩], 4/5, 2⟩
      ⟨⟨1, "DIV", 500, 1⟩, by simp, rfl⟩
      ⟨⟨2, "IMG", 300, 2⟩, by simp, rfl⟩).2
    ⟨1, "DIV", 500, 1⟩ (by simp) rfl).mpr
    (by
      have h1 : (decide (("DIV" : String) = "IMG")) = false := by rfl
      have h2 : (decide (("IMG" : String) = "IMG")) = true := by rfl
      norm_num [maxArea, listMaxQ, List.filter_cons, h1, h2])

/-- C9: a non-empty LCS elements list stays non-empty through updateLCS
(nonnegative event area, code threshold 0.8) and through
filterLargeElements. -/
theorem lcs_stays_nonempty (s : LCSState) (eid : Nat) (tg : String) (a t : ℚ) :
    (s.threshold = 4/5 → 0 ≤ a → (∀ x ∈ s.elements, 0 ≤ x.area) →
      s.elements ≠ [] → (updateLCS s eid tg a t).elements ≠ []) ∧
    (s.elements ≠ [] → (filterLargeElements s).elements ≠ []) := by
  constructor
  · intro hth ha hpos h0
    rw [updateLCS_elements, if_neg h0]
    have hL0 : 0 ≤ maxArea s.elements := maxArea_nonneg h0 hpos
    by_cases h2 : maxArea s.elements < a
    · simp only [if_pos h2]
      have h1 : maxArea s.elements * s.threshold ≤ a := by
        calc maxArea s.elements * s.threshold ≤ maxArea s.elements * 1 := by
              rw [hth]; exact mul_le_mul_of_nonneg_left (by norm_num) hL0
        _ = maxArea s.elements := mul_one _
        _ ≤ a := le_of_lt h2
      simp only [if_pos h1]
      have hepred : a * s.threshold ≤ a := by
        rw [hth]
        calc a * (4/5 : ℚ) ≤ a * 1 := mul_le_mul_of_nonneg_left (by norm_num) ha
        _ = a := mul_one a
      have heK : (⟨eid, tg, a, t⟩ : LCSEntry) ∈
          (upsert s.elements ⟨eid, tg, a, t⟩).filter
            (fun x => a * s.threshold ≤ x.area) :=
        List.mem_filter.mpr ⟨self_mem_upsert _ _, by simpa using hepred⟩
      exact List.ne_nil_of_mem heK
    · simp only [if_neg h2]
      by_cases h1 : maxArea s.elements * s.threshold ≤ a
      · simp only [if_pos h1]
        exact upsert_ne_nil _ _
      · simp only [if_neg h1]
        exact h0
  · intro h0
    by_cases hd : s.elements.any (fun x => x.tag = "DIV") = true
    · by_cases hi : s.elements.any (fun x => x.tag = "IMG") = true
      · rw [filterLargeElements_elements s hd hi]
        rcases List.any_eq_true.mp hi with ⟨x, hx, hxtag⟩
        have : x ∈ s.elements.filter
            (fun x => x.tag = "IMG" ∨
              maxArea (s.elements.filter (fun y => y.tag = "IMG")) * (3/2) < x.area) :=
          List.mem_filter.mpr ⟨hx, by simp at hxtag; simp [hxtag]⟩
        exact List.ne_nil_of_mem this
      · have h0l : 0 < s.elements.length := List.length_pos.mpr h0
        simp only [filterLargeElements, if_pos h0l, hd, hi]
        simpa using h0
    · have h0l : 0 < s.elements.length := List.length_pos.mpr h0
      simp only [filterLargeElements, if_pos h0l]
      rw [Bool.eq_false_iff.mpr hd]  -- hasDivs = false
      simpa using h0

/-- Witness for C9 at a concrete state and event. -/
theorem lcs_stays_nonempty_witness :
    (updateLCS ⟨[⟨1, "IMG", 100, 0⟩], 4/5, 0⟩ 2 "IMG" 200 3).elements ≠ [] :=
  (lcs_stays_nonempty ⟨[⟨1, "IMG", 100, 0⟩], 4/5, 0⟩ 2 "IMG" 200 3).1
    rfl (by norm_num) (by norm_num [List.forall_mem_cons]) (by simp)

/-! ## Custom LCP monotonicity -/

theorem updateCustomLCP_some (c : CustomLCP) (eid : Nat) (tg : String) (a t : ℚ) :
    ∃ d : CustomLCP, updateCustomLCP (some c) eid tg a t = some d ∧ c.size ≤ d.size := by
  by_cases h : c.size < a
  · exact ⟨⟨a, t, tg, eid⟩, by simp [updateCustomLCP, if_pos h], le_of_lt h⟩
  · exact ⟨c, by simp [updateCustomLCP, if_neg h], le_refl _⟩

/-- C10: updateCustomLCP replaces the stored metric only when the new area
strictly exceeds the stored size (so an equal-area later element leaves the
first-seen one in place), and across any sequence of recordPaintEvent calls
the stored size never decreases. -/
theorem custom_lcp_monotone (c : CustomLCP) (eid : Nat) (tg : String) (a t : ℚ)
    (evs : List PaintEv) :
    (¬ c.size < a → updateCustomLCP (some c) eid tg a t = some c) ∧
    (∃ d : CustomLCP, processCustomLCP (some c) evs = some d ∧ c.size ≤ d.size) := by
  constructor
  · intro h
    simp [updateCustomLCP, if_neg h]
  · induction evs generalizing c with
    | nil => exact ⟨c, rfl, le_refl _⟩
    | cons e es ih =>
      rcases updateCustomLCP_some c e.elementId e.tag e.area e.time with ⟨d, hd, hcd⟩
      rcases ih d with ⟨d2, hd2, hdd2⟩
      refine ⟨d2, ?_, le_trans hcd hdd2⟩
      have hfold : processCustomLCP (some c) (e :: es) =
          processCustomLCP (updateCustomLCP (some c) e.elementId e.tag e.area e.time) es :=
        rfl
      rw [hfold, hd]
      exact hd2

/-- Witness for C10: an equal-area event does not displace the stored
element. -/
theorem custom_lcp_monotone_witness :
    updateCustomLCP (some ⟨100, 5, "IMG", 1⟩) 2 "IMG" 100 9 = some ⟨100, 5, "IMG", 1⟩ :=
  (custom_lcp_monotone ⟨100, 5, "IMG", 1⟩ 2 "IMG" 100 9 []).1 (by norm_num)

/-! ## finalizeResults: deduplication lemmas -/

theorem mem_of_mem_dedupAux {r : PaintDelta} :
    ∀ {seen : List (Nat × String)} {m : List PaintDelta}, r ∈ dedupAux seen m → r ∈ m := by
  intro seen m
  induction m generalizing seen with
  | nil => intro h; cases h
  | cons x xs ih =>
    intro h
    by_cases hx : pdKey x ∈ seen
    · rw [dedupAux, if_pos hx] at h
      exact List.mem_cons_of_mem x (ih h)
    · rw [dedupAux, if_neg hx] at h
      rcases List.mem_cons.mp h with h1 | h1
      · exact h1 ▸ List.mem_cons_self x xs
      · exact List.mem_cons_of_mem x (ih h1)

/-- Every survivor of the dedup loop is the first entry of the input with
its key, and its key was not previously seen. -/
theorem dedupAux_first {r : PaintDelta} :
    ∀ {seen : List (Nat × String)} {m : List PaintDelta}, r ∈ dedupAux seen m →
      pdKey r ∉ seen ∧ m.find? (fun x => pdKey x = pdKey r) = some r := by
  intro seen m
  induction m generalizing seen with
  | nil => intro h; cases h
  | cons x xs ih =>
    intro h
    by_cases hx : pdKey x ∈ seen
    · rw [dedupAux, if_pos hx] at h
      rcases ih h with ⟨hns, hfind⟩
      have hne : pdKey x ≠ pdKey r := fun he => hns (he ▸ hx)
      refine ⟨hns, ?_⟩
      rw [List.find?_cons_of_neg _ (by simpa using hne)]
      exact hfind
    · rw [dedupAux, if_neg hx] at h
      rcases List.mem_cons.mp h with h1 | h1
      · subst h1
        exact ⟨hx, List.find?_cons_of_pos _ (by simp)⟩
      · rcases ih h1 with ⟨hns, hfind⟩
        have hnx : pdKey r ≠ pdKey x := fun he => hns (by simp [he])
        have hns2 : pdKey r ∉ seen := fun he => hns (List.mem_cons_of_mem _ he)
        refine ⟨hns2, ?_⟩
        rw [List.find?_cons_of_neg _ (by simpa using fun he => hnx he.symm)]
        exact hfind

/-- The dedup loop output has pairwise distinct keys, none of them in
`seen`. -/
theorem dedupAux_pairwise :
    ∀ (seen : List (Nat × String)) (m : List PaintDelta),
      (dedupAux seen m).Pairwise (fun x y => pdKey x ≠ pdKey y) ∧
      ∀ r ∈ dedupAux seen m, pdKey r ∉ seen := by
  intro seen m
  induction m generalizing seen with
  | nil => exact ⟨List.Pairwise.nil, by intro r h; cases h⟩
  | cons x xs ih =>
    by_cases hx : pdKey x ∈ seen
    · rw [dedupAux, if_pos hx]
      exact ih seen
    · rw [dedupAux, if_neg hx]
      rcases ih (pdKey x :: seen) with ⟨hp, hs⟩
      refine ⟨List.Pairwise.cons ?_ hp, ?_⟩
      · intro y hy he
        exact hs y hy (he ▸ List.mem_cons_self _ _)
      · intro r hr
        rcases List.mem_cons.mp hr with h1 | h1
        · exact h1 ▸ hx
        · exact fun he => hs r h1 (List.mem_cons_of_mem _ he)

/-- On an input whose keys are pairwise distinct and disjoint from `seen`,
the dedup loop is the identity. -/
theorem dedupAux_eq_self :
    ∀ {seen : List (Nat × String)} {m : List PaintDelta},
      m.Pairwise (fun x y => pdKey x ≠ pdKey y) → (∀ r ∈ m, pdKey r ∉ seen) →
      dedupAux seen m = m := by
  intro seen m
  induction m generalizing seen with
  | nil => intro _ _; rfl
  | cons x xs ih =>
    intro hp hs
    rw [dedupAux, if_neg (hs x (List.mem_cons_self x xs))]
    rcases List.pairwise_cons.mp hp with ⟨hx, hp2⟩
    congr 1
    refine ih hp2 ?_
    intro r hr hmem
    rcases List.mem_cons.mp hmem with h1 | h1
    · exact hx r hr h1.symm
    · exact hs r (List.mem_cons_of_mem x hr) h1

/-- A list with pairwise distinct keys has at most one entry per
(imageIndex, type) pair. -/
theorem length_filter_key_le_one {l : List PaintDelta}
    (hp : l.Pairwise (fun x y => pdKey x ≠ pdKey y)) (i : Nat) (ty : String) :
    (l.filter (fun x => x.imageIndex = i ∧ x.type = ty)).length ≤ 1 := by
  induction l with
  | nil => simp
  | cons x xs ih =>
    rcases List.pairwise_cons.mp hp with ⟨hx, hp2⟩
    rw [List.filter_cons]
    by_cases hpx : x.imageIndex = i ∧ x.type = ty
    · rw [if_pos (by simpa using hpx)]
      have hnil : xs.filter (fun x => x.imageIndex = i ∧ x.type = ty) = [] := by
        refine List.filter_eq_nil_iff.mpr ?_
        intro y hy hpy
        have hpy2 : y.imageIndex = i ∧ y.type = ty := by simpa using hpy
        exact hx y hy (by
          show (x.imageIndex, x.type) = (y.imageIndex, y.type)
          rw [hpx.1, hpx.2, hpy2.1, hpy2.2])
      rw [hnil]
      simp
    · rw [if_neg (by simpa using hpx)]
      exact ih hp2

/-- C2: after finalizeResults at most one record survives per
(imageIndex, type) key; each survivor is the first-arriving candidate with
its key among those passing the delta filter (hence, when all candidates
pass the filter, the first-arriving candidate of the whole list, whatever
its detection method); and finalizeResults is idempotent. -/
theorem finalize_dedup (l : List PaintDelta) :
    (∀ (i : Nat) (ty : String), ((finalizeResults l).filter
        (fun x => x.imageIndex = i ∧ x.type = ty)).length ≤ 1) ∧
    (∀ r ∈ finalizeResults l,
      (l.filter (fun x => x.delta < 10000)).find?
        (fun x => pdKey x = pdKey r) = some r) ∧
    ((∀ x ∈ l, x.delta < 10000) →
      ∀ r ∈ finalizeResults l, l.find? (fun x => pdKey x = pdKey r) = some r) ∧
    finalizeResults (finalizeResults l) = finalizeResults l := by
  have hpair := dedupAux_pairwise [] (l.filter (fun x => x.delta < 10000))
  refine ⟨?_, ?_, ?_, ?_⟩
  · intro i ty
    exact length_filter_key_le_one hpair.1 i ty
  · intro r hr
    exact (dedupAux_first hr).2
  · intro hall r hr
    have hfe : l.filter (fun x => x.delta < 10000) = l :=
      List.filter_eq_self.mpr (fun a ha => by simpa using hall a ha)
    have h2 := (dedupAux_first hr).2
    rw [hfe] at h2
    exact h2
  · show dedupAux [] ((finalizeResults l).filter (fun x => x.delta < 10000)) =
      finalizeResults l
    have hself : (finalizeResults l).filter (fun x => x.delta < 10000) =
        finalizeResults l := by
      refine List.filter_eq_self.mpr ?_
      intro a ha
      have := List.mem_filter.mp (mem_of_mem_dedupAux ha)
      exact this.2
    rw [hself]
    exact dedupAux_eq_self hpair.1 (by simp)

/-- Witness for C2: Scenario D, two detection methods for key
(2, "standard"); the first-arriving record is the unique survivor's find?
result. -/
theorem finalize_dedup_witness :
    ([(⟨2, "standard", 50, 100, 50, "requestAnimationFrame"⟩ : PaintDelta),
      ⟨2, "standard", 50, 120, 70, "ElementTiming API"⟩].filter
        (fun x => x.delta < 10000)).find?
      (fun x => pdKey x = pdKey ⟨2, "standard", 50, 100, 50, "requestAnimationFrame"⟩) =
      some ⟨2, "standard", 50, 100, 50, "requestAnimationFrame"⟩ :=
  (finalize_dedup [⟨2, "standard", 50, 100, 50, "requestAnimationFrame"⟩,
      ⟨2, "standard", 50, 120, 70, "ElementTiming API"⟩]).2.1
    ⟨2, "standard", 50, 100, 50, "requestAnimationFrame"⟩
    (by norm_num [finalizeResults, dedupAux, pdKey, List.filter_cons])

/-- C3: every record surviving finalizeResults has delta < 10000; a
candidate with loadTime 1000 and paintTime 12000 (delta 11000) never
appears in the finalized set. -/
theorem finalize_delta_bound (l : List PaintDelta) :
    (∀ r ∈ finalizeResults l, r.delta < 10000) ∧
    (∀ r : PaintDelta, r.loadTime = 1000 → r.paintTime = 12000 →
      r.delta = r.paintTime - r.loadTime → r ∉ finalizeResults l) := by
  have hmem : ∀ r ∈ finalizeResults l, r.delta < 10000 := by
    intro r hr
    have h1 := List.mem_filter.mp (mem_of_mem_dedupAux hr)
    simpa using h1.2
  refine ⟨hmem, ?_⟩
  intro r h1 h2 h3 hr
  have h4 := hmem r hr
  rw [h3, h1, h2] at h4
  norm_num at h4

/-- Witness for C3: the Scenario C candidate is rejected. -/
theorem finalize_delta_bound_witness :
    (⟨7, "standard", 1000, 12000, 11000, "requestAnimationFrame"⟩ : PaintDelta) ∉
      finalizeResults [⟨7, "standard", 1000, 12000, 11000, "requestAnimationFrame"⟩] :=
  (finalize_delta_bound [⟨7, "standard", 1000, 12000, 11000, "requestAnimationFrame"⟩]).2
    ⟨7, "standard", 1000, 12000, 11000, "requestAnimationFrame"⟩ rfl rfl (by norm_num)

/-! ## Viewport records: first entry wins -/

theorem processViewport_aux (evs : List VEvent) :
    ∀ (acc : List VRec) (i : Nat),
    (List.foldl recordViewportEntry acc evs).filter (fun r => r.imageIndex = i) =
      if acc.any (fun r => r.imageIndex = i) then
        acc.filter (fun r => r.imageIndex = i)
      else
        match evs.find? (fun e => e.isIntersecting && e.index = i) with
        | some e => [⟨i, e.time, e.ratioVal⟩]
        | none => [] := by
  induction evs with
  | nil =>
    intro acc i
    simp only [List.foldl_nil, List.find?_nil]
    by_cases h : acc.any (fun r => r.imageIndex = i) = true
    · rw [if_pos h]
    · rw [if_neg h]
      refine List.filter_eq_nil_iff.mpr ?_
      intro a ha hp
      exact h (List.any_eq_true.mpr ⟨a, ha, hp⟩)
  | cons e es ih =>
    intro acc i
    rw [List.foldl_cons, ih (recordViewportEntry acc e) i]
    by_cases hg : (e.isIntersecting && !(acc.any fun r => r.imageIndex = e.index)) = true
    · have hstep : recordViewportEntry acc e =
          acc ++ [⟨e.index, e.time, e.ratioVal⟩] := by
        rw [recordViewportEntry, if_pos hg]
      have hg2 : e.isIntersecting = true ∧
          (!(acc.any fun r => r.imageIndex = e.index)) = true := by
        simpa only [Bool.and_eq_true] using hg
      have hint := hg2.1
      have hAe : (acc.any fun r => r.imageIndex = e.index) = false := by
        simpa using hg2.2
      rw [hstep]
      by_cases hie : e.index = i
      · subst hie
        have hA : (acc.any fun r => r.imageIndex = e.index) = false := hAe
        have hA2 : ((acc ++ [(⟨e.index, e.time, e.ratioVal⟩ : VRec)]).any
            fun r => r.imageIndex = e.index) = true := by
          simp [List.any_append]
        rw [if_pos hA2, if_neg (by simp [hA])]
        have hfe : (acc.filter fun r => r.imageIndex = e.index) = [] := by
          refine List.filter_eq_nil_iff.mpr ?_
          intro a ha hp
          exact (Bool.eq_false_iff.mp hA) (List.any_eq_true.mpr ⟨a, ha, hp⟩)
        rw [List.filter_append, hfe]
        rw [List.find?_cons_of_pos _ (by simp [hint])]
        simp
      · have hA2 : ((acc ++ [(⟨e.index, e.time, e.ratioVal⟩ : VRec)]).any
            fun r => r.imageIndex = i) = (acc.any fun r => r.imageIndex = i) := by
          simp [List.any_append, hie]
        rw [hA2]
        by_cases hAi : (acc.any fun r => r.imageIndex = i) = true
        · rw [if_pos hAi, if_pos hAi, List.filter_append]
          simp [hie]
        · rw [if_neg hAi, if_neg hAi]
          rw [List.find?_cons_of_neg _ (by simp [hie])]
    · have hstep : recordViewportEntry acc e = acc := by
        rw [recordViewportEntry, if_neg hg]
      rw [hstep]
      by_cases hAi : (acc.any fun r => r.imageIndex = i) = true
      · rw [if_pos hAi, if_pos hAi]
      · rw [if_neg hAi, if_neg hAi]
        have hpe : (e.isIntersecting && decide (e.index = i)) = false := by
          rcases Bool.and_eq_false_iff.mp (Bool.eq_false_iff.mpr hg) with h1 | h1
          · simp [h1]
          · have hacc : (acc.any fun r => r.imageIndex = e.index) = true := by
              rcases Bool.not_eq_true _ |>.symm ▸ h1 with h2
              simpa using h1
            have hne : e.index ≠ i := by
              intro he
              exact hAi (he ▸ hacc)
            simp [hne]
        rw [List.find?_cons_of_neg _ (by simpa using hpe)]

/-- C5: for every element index, the viewport-delta list built from any event
sequence holds at most one record for that index, and the record (when it
exists) carries the time and ratio of the first intersecting event for the
index — a later transition never overwrites it. -/
theorem viewport_first_entry_wins (evs : List VEvent) (i : Nat) :
    (processViewport evs).filter (fun r => r.imageIndex = i) =
      match evs.find? (fun e => e.isIntersecting && e.index = i) with
      | some e => [⟨i, e.time, e.ratioVal⟩]
      | none => [] := by
  have h := processViewport_aux evs [] i
  simpa [processViewport] using h

/-! ## Timing reference -/

/-- C6 counterexample: the stored timestamp is not the monotonic clock
reading relative to the navigation-start reference.  With navigation start
at raw instant 0, continueLoading at raw instant 150 and an event at raw
instant 400, the code stores 250 while the navigation-relative reading is
400. -/
theorem stored_time_not_navigation_relative :
    ¬ storedEventTime 0 150 400 = perfNow 0 400 := by
  norm_num [storedEventTime, perfNow, cycleStartTime]

/-- C6 amended: the records do not all share the navigation-start
reference.  Timestamps stored through the `performance.now() - startTime`
sites (load records, viewport records, requestAnimationFrame-method paint
records) are relative to the load-cycle start captured by continueLoading —
clock reading at the event minus the clock reading at continueLoading —
whereas an ElementTiming-method paint record stores the entry's renderTime,
which is the navigation-start-relative reading; the two references coincide
exactly when the cycle starts at navigation start. -/
theorem stored_time_references (navStart tau0 tau : ℚ) :
    storedEventTime navStart tau0 tau = tau - tau0 ∧
    elementTimingPaintTime navStart tau = tau - navStart ∧
    (storedEventTime navStart tau0 tau = elementTimingPaintTime navStart tau ↔
      tau0 = navStart) := by
  refine ⟨?_, rfl, ?_⟩
  · show perfNow navStart tau - cycleStartTime navStart tau0 = tau - tau0
    simp only [perfNow, cycleStartTime]
    ring
  · simp only [storedEventTime, elementTimingPaintTime, perfNow, cycleStartTime]
    constructor
    · intro h
      have h2 : tau - navStart - (tau0 - navStart) = tau - tau0 := by ring
      rw [h2] at h
      linarith
    · intro h
      rw [h]
      ring

/-! ## Bounded paint polling -/

/-- C7: if no frame satisfies the paint condition within 10000 ms of load,
the polling loop adds no record; and a frame reached at or past the 10000 ms
budget (hence in particular at or past 10000 ms after a nonnegative load
time) schedules no further animation-frame callback: the rest of the frame
sequence is never examined. -/
theorem polling_bounded (deltas : List PaintDelta) (idx : Nat) (ty : String)
    (loadTime : ℚ) (f : Frame) (fs frames : List Frame) :
    ((∀ g ∈ frames, g.painted = true → 10000 < g.t - loadTime) →
      checkPaint deltas idx ty loadTime frames = deltas) ∧
    (0 ≤ loadTime → f.painted = false → 10000 ≤ f.t - loadTime →
      checkPaint deltas idx ty loadTime (f :: fs) = deltas) := by
  constructor
  · intro h
    induction frames with
    | nil => rfl
    | cons g gs ih =>
      by_cases hp : g.painted = true
      · have hd := h g (List.mem_cons_self g gs) hp
        rw [checkPaint, if_pos hp, if_pos hd]
      · rw [checkPaint, if_neg hp]
        by_cases ht : g.t < 10000
        · rw [if_pos ht]
          exact ih (fun x hx => h x (List.mem_cons_of_mem g hx))
        · rw [if_neg ht]
  · intro hl hp ht
    have hp2 : ¬ f.painted = true := by simp [hp]
    have ht2 : ¬ f.t < 10000 := by
      push_neg
      linarith
    rw [checkPaint, if_neg hp2, if_neg ht2]

/-- Witness for C7 at a concrete frame trace: a paint condition first
holding 19000 ms after a load at 1000 ms produces no record. -/
theorem polling_bounded_witness :
    checkPaint [] 0 "standard" 1000 [⟨500, false⟩, ⟨20000, true⟩] = [] :=
  (polling_bounded [] 0 "standard" 1000 ⟨500, false⟩ [] [⟨500, false⟩, ⟨20000, true⟩]).1
    (by norm_num [List.forall_mem_cons])

end PaintDemo
